import Mathlib

/-!
Verification of the Cyrillic word analyzer (`src/truth.py`, `src/Truth.py`).

The two Python files share the alphabet tables, the codec
(`encoder_mot_cyrillique`, `decoder_sequence_cyrillique`, `mot_vers_nombre`),
`factorize` and `is_prime` verbatim; those are embedded once below.
`analyser_nombre` differs between the files (the `truth.py` variant adds
floating point, hash and trigonometric fields and bilingual labels); the
embedded record follows `src/Truth.py` lines 119-146 and carries the pure
fields only (floating point values and cryptographic digests of external
libraries are outside the embedding).

Python string primitives (`str.upper`, `str.lower`, `str.strip`,
`str.isalpha`, `str.isdigit`, `str.split('.')`, `'.'.join`, `int(...)`,
`str(...)`) are modelled on `List Char` / `String`.  `upper`, `lower` and
`isalpha` are modelled on the character ranges this program manipulates
(ASCII Latin, Cyrillic, Greek); they are the identity / `false` elsewhere.
-/

set_option maxRecDepth 4000

namespace TruthCyr

/-- Models Python `str.upper()` per character, on ASCII Latin a-z,
Cyrillic а-я (U+0430..U+044F) and ё (U+0451), and the Latin-1 lowercase
letters à..þ except ÷ (U+00E0..U+00FE minus U+00F7), each mapped 32 code
points down as Python does; identity elsewhere.  The model is exact on
these ranges and on characters Python's `upper` leaves unchanged (ASCII
non-letters, uppercase of the ranges above); it is NOT exact on ß
(which Python expands to "SS"), ÿ, µ, or letters of unmapped scripts,
so every theorem below that depends on case folding confines its words,
by hypothesis, to characters where this model agrees with Python. -/
def pyUpperChar (c : Char) : Char :=
  if 97 ≤ c.toNat ∧ c.toNat ≤ 122 then Char.ofNat (c.toNat - 32)
  else if 1072 ≤ c.toNat ∧ c.toNat ≤ 1103 then Char.ofNat (c.toNat - 32)
  else if c.toNat = 1105 then Char.ofNat 1025
  else if 224 ≤ c.toNat ∧ c.toNat ≤ 254 ∧ c.toNat ≠ 247 then
    Char.ofNat (c.toNat - 32)
  else c

/-- Models Python `str.lower()` per character, on ASCII Latin A-Z,
Cyrillic А-Я (U+0410..U+042F) and Ё (U+0401), and the Latin-1 uppercase
letters À..Þ except × (U+00C0..U+00DE minus U+00D7); identity elsewhere
(same fidelity proviso as `pyUpperChar`). -/
def pyLowerChar (c : Char) : Char :=
  if 65 ≤ c.toNat ∧ c.toNat ≤ 90 then Char.ofNat (c.toNat + 32)
  else if 1040 ≤ c.toNat ∧ c.toNat ≤ 1071 then Char.ofNat (c.toNat + 32)
  else if c.toNat = 1025 then Char.ofNat 1105
  else if 192 ≤ c.toNat ∧ c.toNat ≤ 222 ∧ c.toNat ≠ 215 then
    Char.ofNat (c.toNat + 32)
  else c

/-- Models Python `str.isspace()` on the ASCII whitespace characters that
`str.strip()` removes. -/
def pyIsSpace (c : Char) : Bool :=
  c = ' ' || c = '\t' || c = '\n' || c = '\x0d' || c = '\x0b' || c = '\x0c'

/-- Models Python `str.strip()` on a character list: drop leading and
trailing whitespace. -/
def pyStripList (l : List Char) : List Char :=
  ((l.dropWhile pyIsSpace).reverse.dropWhile pyIsSpace).reverse

/-- Models Python `str.isalpha()` per character on ASCII Latin, the
Latin-1 letters (U+00C0..U+00FF minus × and ÷), Cyrillic А-я with Ё/ё,
and Greek Α-Ω/α-ω.  It is exact on these ranges and on ASCII
non-letters (where both sides are false), but `false` on letters of
blocks outside them even though Python accepts every Unicode letter, so
theorems quantifying over arbitrary words confine their hypotheses to
characters where this model agrees with Python. -/
def pyIsAlpha (c : Char) : Bool :=
  let n := c.toNat
  (65 ≤ n && n ≤ 90) || (97 ≤ n && n ≤ 122) ||
  (192 ≤ n && n ≤ 255 && n ≠ 215 && n ≠ 247) ||
  (1040 ≤ n && n ≤ 1103) || n = 1025 || n = 1105 ||
  (913 ≤ n && n ≤ 937 && n ≠ 930) || (945 ≤ n && n ≤ 969)

/-- ASCII decimal digit test (the digits accepted by `int(...)`). -/
def isDigitChar (c : Char) : Bool :=
  48 ≤ c.toNat && c.toNat ≤ 57

/-- Models `int(tok)` on a string of ASCII digits. -/
def natOfDigits (l : List Char) : Nat :=
  l.foldl (fun a c => a * 10 + (c.toNat - 48)) 0

/-- Models Python `sequence.split('.')` on a character list.  As in
Python, the empty string yields `[""]` and separators at the ends yield
empty tokens. -/
def pySplitDot : List Char → List (List Char)
  | [] => [[]]
  | c :: cs =>
    if c = '.' then [] :: pySplitDot cs
    else
      match pySplitDot cs with
      | [] => [[c]]
      | t :: ts => (c :: t) :: ts

/-- Models Python `'.'.join(parts)` on character lists. -/
def pyJoinDot : List (List Char) → List Char
  | [] => []
  | [x] => x
  | x :: y :: ys => x ++ '.' :: pyJoinDot (y :: ys)

/-- `ALPHABET_CYRILLIQUE` of `src/truth.py` lines 15-20 (identical in
`src/Truth.py`): the 33-letter primary alphabet with codes 1..33, in
source order. -/
def ALPHABET_CYRILLIQUE : List (Char × Int) :=
  [('А', 1), ('Б', 2), ('В', 3), ('Г', 4), ('Д', 5), ('Е', 6), ('Ё', 7),
   ('Ж', 8), ('З', 9), ('И', 10), ('Й', 11), ('К', 12), ('Л', 13), ('М', 14),
   ('Н', 15), ('О', 16), ('П', 17), ('Р', 18), ('С', 19), ('Т', 20),
   ('У', 21), ('Ф', 22), ('Х', 23), ('Ц', 24), ('Ч', 25), ('Ш', 26),
   ('Щ', 27), ('Ъ', 28), ('Ы', 29), ('Ь', 30), ('Э', 31), ('Ю', 32),
   ('Я', 33)]

/-- `ALPHABET_INVERSE = {v: k for k, v in ALPHABET_CYRILLIQUE.items()}`
(`src/truth.py` line 22). -/
def ALPHABET_INVERSE : List (Int × Char) :=
  ALPHABET_CYRILLIQUE.map (fun p => (p.2, p.1))

/-- The per-character loop of `encoder_mot_cyrillique` (`src/truth.py`
lines 31-38): a primary-alphabet character contributes its code, any
other alphabetic character contributes `ord(c) - ord('A') + 1`, anything
else is dropped. -/
def encodeCodes : List Char → List Int
  | [] => []
  | c :: cs =>
    match ALPHABET_CYRILLIQUE.lookup c with
    | some n => n :: encodeCodes cs
    | none =>
      if pyIsAlpha c then ((c.toNat : Int) - 65 + 1) :: encodeCodes cs
      else encodeCodes cs

/-- `encoder_mot_cyrillique` (`src/truth.py` lines 24-40, identical in
`src/Truth.py`): uppercase, strip, encode each character, join the
decimal strings with dots. -/
def encoder_mot_cyrillique (mot : String) : String :=
  ⟨pyJoinDot ((encodeCodes (pyStripList (mot.data.map pyUpperChar))).map
    (fun n => (toString n).data))⟩

/-- The per-token body of the decoding loop (`src/truth.py` lines 49-58):
digit tokens in 1..33 map through `ALPHABET_INVERSE`; the `elif` branch
for 1..26 would emit a Latin letter but is reachable only when the first
range test failed.  The `none` arm of the table lookup is unreachable
(the inverse table covers 1..33; Python would raise `KeyError`). -/
def decodeToken (tok : List Char) : List Char :=
  if tok ≠ [] ∧ tok.all isDigitChar then
    let numero := natOfDigits tok
    if 1 ≤ numero ∧ numero ≤ 33 then
      match ALPHABET_INVERSE.lookup (numero : Int) with
      | some lettre => [lettre]
      | none => []
    else if 1 ≤ numero ∧ numero ≤ 26 then [Char.ofNat (numero + 64)]
    else []
  else []

/-- `decoder_sequence_cyrillique` (`src/truth.py` lines 42-60, identical
in `src/Truth.py`): split on dots, decode each token, concatenate. -/
def decoder_sequence_cyrillique (sequence : String) : String :=
  ⟨((pySplitDot sequence.data).map decodeToken).flatten⟩

/-- `mot_vers_nombre` (`src/truth.py` lines 62-73, identical in
`src/Truth.py`): uppercase, strip, sum the primary-alphabet codes;
characters outside the primary alphabet contribute nothing. -/
def mot_vers_nombre (mot : String) : Int :=
  (pyStripList (mot.data.map pyUpperChar)).foldl
    (fun total lettre =>
      match ALPHABET_CYRILLIQUE.lookup lettre with
      | some n => total + n
      | none => total) 0

/-- The inner `while n % d == 0` loop of `factorize` (`src/truth.py`
lines 256-258): returns the appended factors and the reduced value.  The
`0 < n` and `2 ≤ d` conjuncts are termination guards only; `factorize`
calls this with `n ≥ 2`, `d ≥ 2`, where they always hold (at `n = 0`
Python's loop would not terminate, a state the program never reaches). -/
def divideOut (d : Nat) (n : Nat) : List Nat × Nat :=
  if h : 2 ≤ d ∧ 0 < n ∧ n % d = 0 then
    let r := divideOut d (n / d)
    (d :: r.1, r.2)
  else ([], n)
termination_by n
decreasing_by exact Nat.div_lt_self h.2.1 h.1

theorem divideOut_snd_le (d n : Nat) : (divideOut d n).2 ≤ n := by
  induction n using Nat.strong_induction_on with
  | _ n ih =>
    rw [divideOut]
    split
    · next h =>
      exact le_trans (ih (n / d) (Nat.div_lt_self h.2.1 h.1))
        (Nat.div_le_self n d)
    · exact le_refl n

/-- The outer `while d * d <= n` loop of `factorize` (`src/truth.py`
lines 255-262), including the final `if n > 1: factors.append(n)`.  The
`2 ≤ d` conjunct is a termination guard; the loop starts at `d = 2` and
only increments `d`. -/
def factorLoop (d n : Nat) : List Nat :=
  if h : 2 ≤ d ∧ d * d ≤ n then
    let r := divideOut d n
    r.1 ++ factorLoop (d + 1) r.2
  else if 1 < n then [n] else []
termination_by n + 1 - d
decreasing_by
  have h1 : (divideOut d n).2 ≤ n := divideOut_snd_le d n
  have h2 : d ≤ n := le_trans (Nat.le_mul_of_pos_left d (by omega)) h.2
  omega

/-- `factorize` (`src/truth.py` lines 248-262, identical in
`src/Truth.py`): `[n]` for `n < 2`, else trial division from 2. -/
def factorize (n : Int) : List Int :=
  if n < 2 then [n]
  else (factorLoop 2 n.toNat).map (fun m : Nat => (m : Int))

/-- Largest `k ≤ r` with `k * k ≤ n` (0 when there is none): the
search step of the executable integer square root. -/
def isqrtGo (n : Nat) : Nat → Nat
  | 0 => 0
  | r + 1 => if (r + 1) * (r + 1) ≤ n then r + 1 else isqrtGo n r

/-- Executable integer square root (structurally recursive, so concrete
values reduce in the kernel); proven equal to `Nat.sqrt` below. -/
def isqrt (n : Nat) : Nat := isqrtGo n n

/-- `is_prime` (`src/truth.py` lines 264-271, identical in
`src/Truth.py`): `False` for `n < 2`, else trial division over
`range(2, int(math.sqrt(n)) + 1)`.  Python's `int(math.sqrt(n))` is
modelled as the exact integer square root (the two agree wherever the
double-precision square root is exact). -/
def is_prime (n : Int) : Bool :=
  if n < 2 then false
  else (List.range' 2 (isqrt n.toNat - 1)).all (fun i => n.toNat % i != 0)

/-- `is_fibonacci` (`src/truth.py` lines 283-288): `False` for `n < 0`,
else test whether `5*n*n + 4` or `5*n*n - 4` is a perfect square via the
integer square root.  `math.isqrt` raises on a negative argument; here
`x - 4 < 0` happens only at `n = 0`, where Python's short-circuiting
`or` never evaluates the second disjunct — the total model maps that
disjunct to `false`, which agrees with the short circuit. -/
def is_fibonacci (n : Int) : Bool :=
  if n < 0 then false
  else
    let x : Int := 5 * n * n
    (isqrt (x + 4).toNat : Int) ^ 2 == x + 4 ||
    (isqrt (x - 4).toNat : Int) ^ 2 == x - 4

/-- Lucas numbers (2, 1, 3, 4, 7, ...), the companion sequence used to
settle the perfect-square Fibonacci test. -/
def lucas : Nat → Nat
  | 0 => 2
  | 1 => 1
  | n + 2 => lucas (n + 1) + lucas n

/-- Digit character for bases up to 16, lowercase as Python prints it. -/
def baseDigit (m : Nat) : Char :=
  if m < 10 then Char.ofNat (48 + m) else Char.ofNat (87 + m)

/-- Most-significant-first digits of `n` in base `b` (empty for 0; the
`2 ≤ b` conjunct is a termination guard, all uses pass 2, 8, 10 or 16). -/
def natDigits (b : Nat) (n : Nat) : List Char :=
  if h : 2 ≤ b ∧ 0 < n then natDigits b (n / b) ++ [baseDigit (n % b)]
  else []
termination_by n
decreasing_by exact Nat.div_lt_self h.2 h.1

/-- Digit string of a natural number in base `b`, `"0"` for zero. -/
def pyNatLit (b : Nat) (n : Nat) : List Char :=
  if n = 0 then ['0'] else natDigits b n

/-- Models Python `hex`/`bin`/`oct`: sign, then prefix (`0x`/`0b`/`0o`),
then the digits of the absolute value. -/
def pyIntLit (b : Nat) (pre : List Char) (n : Int) : List Char :=
  if n < 0 then '-' :: (pre ++ pyNatLit b (-n).toNat)
  else pre ++ pyNatLit b n.toNat

/-- `hex(nombre)[2:].upper()` (`src/Truth.py` line 127). -/
def hexadecimal_field (n : Int) : String :=
  ⟨((pyIntLit 16 ['0', 'x'] n).drop 2).map pyUpperChar⟩

/-- `bin(nombre)[2:]` (`src/Truth.py` line 128). -/
def binary_field (n : Int) : String :=
  ⟨(pyIntLit 2 ['0', 'b'] n).drop 2⟩

/-- `oct(nombre)[2:]` (`src/Truth.py` line 129). -/
def octal_field (n : Int) : String :=
  ⟨(pyIntLit 8 ['0', 'o'] n).drop 2⟩

/-- The pure fields of the `analyser_nombre` report of `src/Truth.py`
lines 119-146.  The floating-point field (`square_root`), the
digit-string fields and the external-library digests (`md5`, `sha256`,
`base64`) are outside the embedding; `src/truth.py`'s variant of the
function computes the same values for the fields below but renders
`parity` and `prime_status` with bilingual labels
(`"Четное (Even)"` instead of `"Even"`, and so on). -/
structure AnalyseNombre where
  decimal : Int
  hexadecimal : String
  binary : String
  octal : String
  parity : String
  factors : List Int
  prime_status : String
  square : Int
  cube : Int

/-- `analyser_nombre` (`src/Truth.py` lines 119-146), restricted to the
pure fields of `AnalyseNombre`.  `"Odd" if nombre % 2 else "Even"`
tests the remainder against zero. -/
def analyser_nombre (nombre : Int) : AnalyseNombre :=
  ⟨nombre,
   hexadecimal_field nombre,
   binary_field nombre,
   octal_field nombre,
   if nombre % 2 != 0 then "Odd" else "Even",
   factorize nombre,
   if is_prime nombre then "Prime" else "Composite",
   nombre ^ 2,
   nombre ^ 3⟩

/-- `number_to_ipv4` (`src/truth.py` lines 305-309): dotted quad of the
four big-endian bytes when `0 <= n <= 0xFFFFFFFF`, else the bilingual
invalid-address sentinel. -/
def number_to_ipv4 (n : Int) : String :=
  if 0 ≤ n ∧ n ≤ 4294967295 then
    toString ((n.toNat >>> 24) &&& 255) ++ "." ++
    toString ((n.toNat >>> 16) &&& 255) ++ "." ++
    toString ((n.toNat >>> 8) &&& 255) ++ "." ++
    toString (n.toNat &&& 255)
  else "Неверный IPv4 адрес (Invalid IPv4 address)"

/-- English weekday names as C-locale `%A` prints them, indexed so that
index 0 is Monday (day 0 of the UNIX epoch, 1 January 1970, is a
Thursday, index 3). -/
def weekdayName (w : Nat) : String :=
  match w with
  | 0 => "Monday"
  | 1 => "Tuesday"
  | 2 => "Wednesday"
  | 3 => "Thursday"
  | 4 => "Friday"
  | 5 => "Saturday"
  | _ => "Sunday"

/-- English month names as C-locale `%B` prints them, 1-indexed. -/
def monthName (m : Nat) : String :=
  match m with
  | 1 => "January"
  | 2 => "February"
  | 3 => "March"
  | 4 => "April"
  | 5 => "May"
  | 6 => "June"
  | 7 => "July"
  | 8 => "August"
  | 9 => "September"
  | 10 => "October"
  | 11 => "November"
  | _ => "December"

/-- Two-digit zero padding, as `%d`, `%H`, `%M`, `%S` print. -/
def pad2 (n : Nat) : String :=
  if n < 10 then "0" ++ toString n else toString n

/-- Modelled from the spec: the library call
`datetime.fromtimestamp(t).strftime('%A, %d %B %Y at %H:%M:%S UTC')` of
`src/truth.py` line 300 is not repository code; per spec §4.3 it renders
the timestamp as a calendar date/time (day-of-week, day, month name,
year, time, UTC marker).  The Gregorian civil date is computed from the
day count with the standard era decomposition. -/
def formatTimestamp (t : Nat) : String :=
  let days := t / 86400
  let secs := t % 86400
  let z := days + 719468
  let era := z / 146097
  let doe := z % 146097
  let yoe := (doe - doe / 1460 + doe / 36524 - doe / 146096) / 365
  let doy := doe - (365 * yoe + yoe / 4 - yoe / 100)
  let mp := (5 * doy + 2) / 153
  let d := doy - (153 * mp + 2) / 5 + 1
  let m := if mp < 10 then mp + 3 else mp - 9
  let y := era * 400 + yoe + (if m ≤ 2 then 1 else 0)
  weekdayName ((days + 3) % 7) ++ ", " ++ pad2 d ++ " " ++ monthName m ++
    " " ++ toString y ++ " at " ++ pad2 (secs / 3600) ++ ":" ++
    pad2 (secs % 3600 / 60) ++ ":" ++ pad2 (secs % 60) ++ " UTC"

/-- `unix_to_datetime` (`src/truth.py` lines 296-303): format timestamps
in `[0, 2000000000]` as a calendar date/time, return the bilingual
sentinel outside that range.  The `try`/`except` of the source catches
conversion failures; the embedded formatter is total, so the sentinel is
reached exactly on the range test. -/
def unix_to_datetime (timestamp : Int) : String :=
  if 0 ≤ timestamp ∧ timestamp ≤ 2000000000 then
    formatTimestamp timestamp.toNat
  else "Неверная или вне диапазона метка времени (Invalid or out-of-range timestamp)"

/-- Models Python `str.upper()` on a whole string. -/
def pyUpper (s : String) : String := ⟨s.data.map pyUpperChar⟩

/-- Models Python `str.lower()` on a whole string. -/
def pyLower (s : String) : String := ⟨s.data.map pyLowerChar⟩

theorem isqrtGo_sq_le (n : Nat) : ∀ r, isqrtGo n r * isqrtGo n r ≤ n := by
  intro r
  induction r with
  | zero => simpa [isqrtGo] using Nat.zero_le n
  | succ r ih =>
    rw [isqrtGo]
    split
    · assumption
    · exact ih

theorem isqrtGo_max (n : Nat) :
    ∀ r k, k ≤ r → k * k ≤ n → k ≤ isqrtGo n r := by
  intro r
  induction r with
  | zero => intro k hk _; simpa [isqrtGo] using hk
  | succ r ih =>
    intro k hk hsq
    rw [isqrtGo]
    split
    · exact hk
    · next hcond =>
      have hk' : k ≤ r := by
        rcases Nat.eq_or_lt_of_le hk with h | h
        · exact absurd (h ▸ hsq) hcond
        · omega
      exact ih k hk' hsq

theorem isqrt_eq_sqrt (n : Nat) : isqrt n = Nat.sqrt n := by
  refine le_antisymm (Nat.le_sqrt.mpr (isqrtGo_sq_le n n)) ?_
  exact isqrtGo_max n n (Nat.sqrt n) (Nat.sqrt_le_self n) (Nat.sqrt_le n)

theorem lookup_mem {α β : Type} [BEq α] [LawfulBEq α] :
    ∀ (l : List (α × β)) (a : α) (b : β), l.lookup a = some b → (a, b) ∈ l := by
  intro l a b
  induction l with
  | nil => intro h; simp [List.lookup] at h
  | cons p ps ih =>
    obtain ⟨k, v⟩ := p
    intro h
    rw [List.lookup] at h
    cases hk : a == k with
    | true =>
      rw [hk] at h
      simp only [Option.some.injEq] at h
      simp [eq_of_beq hk, h]
    | false =>
      rw [hk] at h
      exact List.mem_cons_of_mem _ (ih h)

theorem mem_lookup_isSome {α β : Type} [BEq α] [LawfulBEq α] :
    ∀ (l : List (α × β)) (a : α) (b : β), (a, b) ∈ l → (l.lookup a).isSome = true := by
  intro l a b
  induction l with
  | nil => intro h; simp at h
  | cons p ps ih =>
    obtain ⟨k, v⟩ := p
    intro h
    rw [List.lookup]
    cases hk : a == k with
    | true => rfl
    | false =>
      rcases List.mem_cons.mp h with h1 | h1
      · injection h1 with h2 h3
        rw [h2] at hk
        simp at hk
      · exact ih h1

/-- The facts about each alphabet pair that the codec proofs consume,
established by evaluation over the concrete 33-entry table. -/
theorem alphabet_pair_facts : ∀ p ∈ ALPHABET_CYRILLIQUE,
    pyIsSpace p.1 = false ∧ pyUpperChar p.1 = p.1 ∧
    decodeToken ((toString p.2).data) = [p.1] ∧
    (∀ ch ∈ (toString p.2).data, ch ≠ '.') ∧ 1 ≤ p.2 ∧ p.2 ≤ 33 := by decide

theorem dropWhile_eq_self_of {p : Char → Bool} :
    ∀ l : List Char, (∀ c ∈ l, p c = false) → l.dropWhile p = l := by
  intro l h
  cases l with
  | nil => rfl
  | cons a l' => simp [List.dropWhile_cons, h a (List.mem_cons_self a l')]

theorem pyStripList_eq_self (l : List Char) (h : ∀ c ∈ l, pyIsSpace c = false) :
    pyStripList l = l := by
  unfold pyStripList
  rw [dropWhile_eq_self_of l h,
    dropWhile_eq_self_of l.reverse (fun c hc => h c (List.mem_reverse.mp hc))]
  exact List.reverse_reverse l

theorem pySplitDot_nodot : ∀ t : List Char, (∀ ch ∈ t, ch ≠ '.') →
    pySplitDot t = [t] := by
  intro t
  induction t with
  | nil => intro _; rfl
  | cons a t' ih =>
    intro h
    have ha : ¬(a = '.') := h a (List.mem_cons_self a t')
    rw [pySplitDot, if_neg ha, ih (fun x hx => h x (List.mem_cons_of_mem a hx))]

theorem pySplitDot_append : ∀ (t l : List Char), (∀ ch ∈ t, ch ≠ '.') →
    pySplitDot (t ++ '.' :: l) = t :: pySplitDot l := by
  intro t l
  induction t with
  | nil => intro _; simp [pySplitDot]
  | cons a t' ih =>
    intro h
    have ha : ¬(a = '.') := h a (List.mem_cons_self a t')
    rw [List.cons_append, pySplitDot, if_neg ha,
      ih (fun x hx => h x (List.mem_cons_of_mem a hx))]

/-- Core of the round-trip law: decoding the dot-joined encoding of a
list of primary-alphabet characters recovers the list. -/
theorem decode_encode_codes :
    ∀ l : List Char, (∀ c ∈ l, (ALPHABET_CYRILLIQUE.lookup c).isSome = true) →
      ((pySplitDot (pyJoinDot ((encodeCodes l).map (fun n => (toString n).data)))).map
        decodeToken).flatten = l := by
  intro l
  induction l with
  | nil => intro _; rfl
  | cons c cs ih =>
    intro h
    obtain ⟨n, hn⟩ := Option.isSome_iff_exists.mp (h c (List.mem_cons_self c cs))
    have hfacts := alphabet_pair_facts _ (lookup_mem _ _ _ hn)
    have hdec : decodeToken ((toString n).data) = [c] := hfacts.2.2.1
    have hdot : ∀ ch ∈ (toString n).data, ch ≠ '.' := hfacts.2.2.2.1
    have henc : encodeCodes (c :: cs) = n :: encodeCodes cs := by
      rw [encodeCodes, hn]
    cases cs with
    | nil =>
      rw [henc, show encodeCodes ([] : List Char) = [] from rfl]
      simp only [List.map_cons, List.map_nil]
      rw [show pyJoinDot [(toString n).data] = (toString n).data from rfl,
        pySplitDot_nodot _ hdot]
      simp [hdec]
    | cons c' cs' =>
      obtain ⟨n', hn'⟩ := Option.isSome_iff_exists.mp
        (h c' (List.mem_cons_of_mem c (List.mem_cons_self c' cs')))
      have henc' : encodeCodes (c' :: cs') = n' :: encodeCodes cs' := by
        rw [encodeCodes, hn']
      have hih := ih (fun x hx => h x (List.mem_cons_of_mem c hx))
      rw [henc', List.map_cons] at hih
      rw [henc, henc']
      rw [List.map_cons, List.map_cons, pyJoinDot,
        pySplitDot_append _ _ hdot, List.map_cons, List.flatten_cons, hdec, hih]
      rfl

/-- C1: For every word all of whose characters are (up to case) symbols
of the primary Cyrillic alphabet, decoding the encoding of the word
yields its uppercase form:
`decoder_sequence_cyrillique (encoder_mot_cyrillique w) = w.upper()`. -/
theorem C1_decode_encode_upper (w : String)
    (h : ∀ c ∈ w.data, (ALPHABET_CYRILLIQUE.lookup (pyUpperChar c)).isSome = true) :
    decoder_sequence_cyrillique (encoder_mot_cyrillique w) = pyUpper w := by
  have hl : ∀ c ∈ w.data.map pyUpperChar,
      (ALPHABET_CYRILLIQUE.lookup c).isSome = true := by
    intro c hc
    obtain ⟨c0, hc0, rfl⟩ := List.mem_map.mp hc
    exact h c0 hc0
  have hns : ∀ c ∈ w.data.map pyUpperChar, pyIsSpace c = false := by
    intro c hc
    obtain ⟨n, hn⟩ := Option.isSome_iff_exists.mp (hl c hc)
    exact (alphabet_pair_facts _ (lookup_mem _ _ _ hn)).1
  unfold decoder_sequence_cyrillique encoder_mot_cyrillique
  rw [pyStripList_eq_self _ hns]
  exact congrArg String.mk (decode_encode_codes _ hl)

/-- C1 witness: the round-trip law applied to the concrete word
"Привет". -/
theorem C1_decode_encode_upper_witness :
    decoder_sequence_cyrillique (encoder_mot_cyrillique "Привет") = pyUpper "Привет" :=
  C1_decode_encode_upper "Привет" (by decide)

/-- C2: Encoding "ПРИВЕТ" yields "17.18.10.3.6.20", its aggregate value
is 74, and decoding "17.18.10.3.6.20" yields "ПРИВЕТ". -/
theorem C2_privet_scenario :
    encoder_mot_cyrillique "ПРИВЕТ" = "17.18.10.3.6.20" ∧
    mot_vers_nombre "ПРИВЕТ" = 74 ∧
    decoder_sequence_cyrillique "17.18.10.3.6.20" = "ПРИВЕТ" :=
  ⟨by decide, by decide, by decide⟩

theorem toNat_ofNat_of_valid {m : Nat} (h : m < 55296) :
    (Char.ofNat m).toNat = m := by
  rw [Char.ofNat, dif_pos (Or.inl h)]
  rfl

theorem pyUpperChar_of_none (c : Char) (h1 : ¬(97 ≤ c.toNat ∧ c.toNat ≤ 122))
    (h2 : ¬(1072 ≤ c.toNat ∧ c.toNat ≤ 1103)) (h3 : ¬ c.toNat = 1105)
    (h4 : ¬(224 ≤ c.toNat ∧ c.toNat ≤ 254 ∧ c.toNat ≠ 247)) :
    pyUpperChar c = c := by
  unfold pyUpperChar
  rw [if_neg h1, if_neg h2, if_neg h3, if_neg h4]

theorem pyUpperChar_idem (c : Char) : pyUpperChar (pyUpperChar c) = pyUpperChar c := by
  by_cases h1 : 97 ≤ c.toNat ∧ c.toNat ≤ 122
  · have e1 : pyUpperChar c = Char.ofNat (c.toNat - 32) := by
      unfold pyUpperChar; rw [if_pos h1]
    have ht : (Char.ofNat (c.toNat - 32)).toNat = c.toNat - 32 :=
      toNat_ofNat_of_valid (by omega)
    rw [e1, pyUpperChar_of_none _ (by omega) (by omega) (by omega) (by omega)]
  · by_cases h2 : 1072 ≤ c.toNat ∧ c.toNat ≤ 1103
    · have e2 : pyUpperChar c = Char.ofNat (c.toNat - 32) := by
        unfold pyUpperChar; rw [if_neg h1, if_pos h2]
      have ht : (Char.ofNat (c.toNat - 32)).toNat = c.toNat - 32 :=
        toNat_ofNat_of_valid (by omega)
      rw [e2, pyUpperChar_of_none _ (by omega) (by omega) (by omega) (by omega)]
    · by_cases h3 : c.toNat = 1105
      · have e3 : pyUpperChar c = Char.ofNat 1025 := by
          unfold pyUpperChar; rw [if_neg h1, if_neg h2, if_pos h3]
        have ht : (Char.ofNat 1025).toNat = 1025 := toNat_ofNat_of_valid (by omega)
        rw [e3, pyUpperChar_of_none _ (by omega) (by omega) (by omega) (by omega)]
      · by_cases h4 : 224 ≤ c.toNat ∧ c.toNat ≤ 254 ∧ c.toNat ≠ 247
        · have e4 : pyUpperChar c = Char.ofNat (c.toNat - 32) := by
            unfold pyUpperChar; rw [if_neg h1, if_neg h2, if_neg h3, if_pos h4]
          have ht : (Char.ofNat (c.toNat - 32)).toNat = c.toNat - 32 :=
            toNat_ofNat_of_valid (by omega)
          rw [e4,
            pyUpperChar_of_none _ (by omega) (by omega) (by omega) (by omega)]
        · rw [pyUpperChar_of_none c h1 h2 h3 h4, pyUpperChar_of_none c h1 h2 h3 h4]

theorem pyUpperChar_pyLowerChar (c : Char) :
    pyUpperChar (pyLowerChar c) = pyUpperChar c := by
  by_cases h1 : 65 ≤ c.toNat ∧ c.toNat ≤ 90
  · have e1 : pyLowerChar c = Char.ofNat (c.toNat + 32) := by
      unfold pyLowerChar; rw [if_pos h1]
    have ht : (Char.ofNat (c.toNat + 32)).toNat = c.toNat + 32 :=
      toNat_ofNat_of_valid (by omega)
    have e2 : pyUpperChar (Char.ofNat (c.toNat + 32)) =
        Char.ofNat ((Char.ofNat (c.toNat + 32)).toNat - 32) := by
      unfold pyUpperChar; rw [if_pos (by omega)]
    rw [e1, e2, ht, Nat.add_sub_cancel, Char.ofNat_toNat,
      pyUpperChar_of_none c (by omega) (by omega) (by omega) (by omega)]
  · by_cases h2 : 1040 ≤ c.toNat ∧ c.toNat ≤ 1071
    · have e1 : pyLowerChar c = Char.ofNat (c.toNat + 32) := by
        unfold pyLowerChar; rw [if_neg h1, if_pos h2]
      have ht : (Char.ofNat (c.toNat + 32)).toNat = c.toNat + 32 :=
        toNat_ofNat_of_valid (by omega)
      have e2 : pyUpperChar (Char.ofNat (c.toNat + 32)) =
          Char.ofNat ((Char.ofNat (c.toNat + 32)).toNat - 32) := by
        unfold pyUpperChar; rw [if_neg (by omega), if_pos (by omega)]
      rw [e1, e2, ht, Nat.add_sub_cancel, Char.ofNat_toNat,
        pyUpperChar_of_none c (by omega) (by omega) (by omega) (by omega)]
    · by_cases h3 : c.toNat = 1025
      · have e1 : pyLowerChar c = Char.ofNat 1105 := by
          unfold pyLowerChar; rw [if_neg h1, if_neg h2, if_pos h3]
        have ht : (Char.ofNat 1105).toNat = 1105 := toNat_ofNat_of_valid (by omega)
        have e2 : pyUpperChar (Char.ofNat 1105) = Char.ofNat 1025 := by
          unfold pyUpperChar
          rw [if_neg (by omega), if_neg (by omega), if_pos ht]
        have e3 : pyUpperChar c = c :=
          pyUpperChar_of_none c (by omega) (by omega) (by omega) (by omega)
        rw [e1, e2, e3, ← h3, Char.ofNat_toNat]
      · by_cases h4 : 192 ≤ c.toNat ∧ c.toNat ≤ 222 ∧ c.toNat ≠ 215
        · have e1 : pyLowerChar c = Char.ofNat (c.toNat + 32) := by
            unfold pyLowerChar; rw [if_neg h1, if_neg h2, if_neg h3, if_pos h4]
          have ht : (Char.ofNat (c.toNat + 32)).toNat = c.toNat + 32 :=
            toNat_ofNat_of_valid (by omega)
          have e2 : pyUpperChar (Char.ofNat (c.toNat + 32)) =
              Char.ofNat ((Char.ofNat (c.toNat + 32)).toNat - 32) := by
            unfold pyUpperChar
            rw [if_neg (by omega), if_neg (by omega), if_neg (by omega),
              if_pos (by omega)]
          rw [e1, e2, ht, Nat.add_sub_cancel, Char.ofNat_toNat,
            pyUpperChar_of_none c (by omega) (by omega) (by omega) (by omega)]
        · have e1 : pyLowerChar c = c := by
            unfold pyLowerChar; rw [if_neg h1, if_neg h2, if_neg h3, if_neg h4]
          rw [e1]

theorem mot_foldl_eq_sum (a : Int) :
    ∀ l : List Char,
      l.foldl (fun total lettre =>
        match ALPHABET_CYRILLIQUE.lookup lettre with
        | some n => total + n
        | none => total) a =
      a + (l.map (fun c => (ALPHABET_CYRILLIQUE.lookup c).getD 0)).sum := by
  intro l
  induction l generalizing a with
  | nil => simp
  | cons c cs ih =>
    rw [List.foldl_cons, ih, List.map_cons, List.sum_cons]
    cases h : ALPHABET_CYRILLIQUE.lookup c with
    | none => simp [h]
    | some n => simp [h]; try ring

theorem space_not_key : ∀ c : Char, pyIsSpace c = true →
    ALPHABET_CYRILLIQUE.lookup c = none := by
  intro c h
  simp only [pyIsSpace, Bool.or_eq_true, decide_eq_true_eq] at h
  rcases h with ((((h | h) | h) | h) | h) | h <;> subst h <;> decide

theorem sum_map_dropWhile {f : Char → Int} {p : Char → Bool}
    (h0 : ∀ c, p c = true → f c = 0) :
    ∀ l : List Char, ((l.dropWhile p).map f).sum = (l.map f).sum := by
  intro l
  induction l with
  | nil => rfl
  | cons a l' ih =>
    by_cases ha : p a = true
    · rw [List.dropWhile_cons, if_pos ha, ih, List.map_cons, List.sum_cons,
        h0 a ha, zero_add]
    · rw [List.dropWhile_cons, if_neg ha]

theorem sum_map_pyStripList {f : Char → Int}
    (h0 : ∀ c, pyIsSpace c = true → f c = 0) (l : List Char) :
    ((pyStripList l).map f).sum = (l.map f).sum := by
  unfold pyStripList
  rw [List.map_reverse, List.sum_reverse, sum_map_dropWhile h0,
    List.map_reverse, List.sum_reverse, sum_map_dropWhile h0]

theorem upper_value_zero_of_space (c : Char) (h : pyIsSpace c = true) :
    (ALPHABET_CYRILLIQUE.lookup (pyUpperChar c)).getD 0 = 0 := by
  simp only [pyIsSpace, Bool.or_eq_true, decide_eq_true_eq] at h
  rcases h with ((((h | h) | h) | h) | h) | h <;> subst h <;> decide

/-- The aggregate value is the sum, over the characters of the word, of
the primary-alphabet code of the character's uppercase form (0 for
characters outside the primary alphabet). -/
theorem mot_vers_nombre_eq_sum (w : String) :
    mot_vers_nombre w =
      (w.data.map (fun c =>
        (ALPHABET_CYRILLIQUE.lookup (pyUpperChar c)).getD 0)).sum := by
  unfold mot_vers_nombre
  rw [mot_foldl_eq_sum, zero_add,
    sum_map_pyStripList (fun c h => by
      simp only [Option.getD_eq_iff, space_not_key c h]; simp),
    List.map_map]
  rfl

/-- C4: `mot_vers_nombre` sums exactly the primary-alphabet codes of the
word's (case-folded) primary-alphabet characters — every other
character, including basic-Latin letters, contributes zero — and the
aggregate is invariant under case changes and under inserting interior
whitespace. -/
theorem C4_aggregate_value (w : String) (l1 l2 : List Char) :
    mot_vers_nombre w =
      (w.data.map (fun c =>
        (ALPHABET_CYRILLIQUE.lookup (pyUpperChar c)).getD 0)).sum ∧
    mot_vers_nombre (pyUpper w) = mot_vers_nombre w ∧
    mot_vers_nombre (pyLower w) = mot_vers_nombre w ∧
    mot_vers_nombre ⟨l1 ++ ' ' :: l2⟩ = mot_vers_nombre ⟨l1 ++ l2⟩ := by
  refine ⟨mot_vers_nombre_eq_sum w, ?_, ?_, ?_⟩
  · rw [mot_vers_nombre_eq_sum, mot_vers_nombre_eq_sum w]
    show ((w.data.map pyUpperChar).map _).sum = _
    rw [List.map_map]
    congr 1
    refine List.map_congr_left (fun c _ => ?_)
    simp [Function.comp, pyUpperChar_idem]
  · rw [mot_vers_nombre_eq_sum, mot_vers_nombre_eq_sum w]
    show ((w.data.map pyLowerChar).map _).sum = _
    rw [List.map_map]
    congr 1
    refine List.map_congr_left (fun c _ => ?_)
    simp [Function.comp, pyUpperChar_pyLowerChar]
  · rw [mot_vers_nombre_eq_sum, mot_vers_nombre_eq_sum]
    show ((l1 ++ ' ' :: l2).map _).sum = ((l1 ++ l2).map _).sum
    rw [List.map_append, List.map_append, List.sum_append, List.sum_append,
      List.map_cons, List.sum_cons]
    have hsp : (ALPHABET_CYRILLIQUE.lookup (pyUpperChar ' ')).getD 0 = 0 := by decide
    rw [hsp, zero_add]

theorem mem_of_mem_dropWhile {p : Char → Bool} :
    ∀ (l : List Char) (c : Char), c ∈ l.dropWhile p → c ∈ l := by
  intro l
  induction l with
  | nil => intro c h; simp [List.dropWhile] at h
  | cons a l' ih =>
    intro c h
    rw [List.dropWhile_cons] at h
    split at h
    · exact List.mem_cons_of_mem a (ih c h)
    · exact h

theorem mem_of_mem_pyStripList (l : List Char) (c : Char)
    (h : c ∈ pyStripList l) : c ∈ l := by
  unfold pyStripList at h
  rw [List.mem_reverse] at h
  have h1 := mem_of_mem_dropWhile _ _ h
  rw [List.mem_reverse] at h1
  exact mem_of_mem_dropWhile _ _ h1

/-- C3 counterexamples: the Greek capital omega and the Latin-1 letter
é are alphabetic for Python but are neither primary-alphabet symbols
nor basic-Latin letters, and the encoder does not drop them: "Ω" is
encoded as the single token "873", and "café" — Python uppercases it to
"CAFÉ" and accepts 'É' as alphabetic — as "3.1.6.137", with tokens 873
and 137 outside [1,33]. -/
theorem C3_counterexample_nonlatin :
    encoder_mot_cyrillique "Ω" = "873" ∧
    ALPHABET_CYRILLIQUE.lookup 'Ω' = none ∧
    ¬(65 ≤ 'Ω'.toNat ∧ 'Ω'.toNat ≤ 90) ∧
    encodeCodes ['Ω'] = [873] ∧ ¬((873 : Int) ≤ 33) ∧
    encoder_mot_cyrillique "café" = "3.1.6.137" ∧
    ALPHABET_CYRILLIQUE.lookup 'É' = none ∧
    ¬(65 ≤ 'É'.toNat ∧ 'É'.toNat ≤ 90) ∧ ¬((137 : Int) ≤ 33) :=
  ⟨by decide, by decide, by decide, by decide, by decide, by decide,
   by decide, by decide, by decide⟩

theorem alphabet_keys_high : ∀ p ∈ ALPHABET_CYRILLIQUE, 1025 ≤ p.1.toNat := by
  decide

theorem lookup_none_of_low (c : Char) (h : c.toNat < 1025) :
    ALPHABET_CYRILLIQUE.lookup c = none := by
  cases hlk : ALPHABET_CYRILLIQUE.lookup c with
  | none => rfl
  | some n =>
    have h2 : 1025 ≤ c.toNat := alphabet_keys_high _ (lookup_mem _ _ _ hlk)
    omega

theorem pyIsAlpha_false_of_ascii_nonletter (c : Char)
    (hs : c.toNat < 65 ∨ (91 ≤ c.toNat ∧ c.toNat ≤ 96) ∨
      (123 ≤ c.toNat ∧ c.toNat ≤ 126)) :
    ¬ (pyIsAlpha c = true) := by
  intro hab
  simp only [pyIsAlpha, Bool.or_eq_true, Bool.and_eq_true,
    decide_eq_true_eq] at hab
  omega

/-- Every code the encoder emits lies in [1,33] when every character of
the list is a primary-alphabet symbol, a basic-Latin uppercase letter,
or an ASCII non-letter — exactly the characters on which the embedded
`isalpha`/`upper` agree with Python. -/
theorem encodeCodes_bounds :
    ∀ l : List Char,
      (∀ x ∈ l, (ALPHABET_CYRILLIQUE.lookup x).isSome = true ∨
        (65 ≤ x.toNat ∧ x.toNat ≤ 90) ∨
        (x.toNat < 65 ∨ (91 ≤ x.toNat ∧ x.toNat ≤ 96) ∨
          (123 ≤ x.toNat ∧ x.toNat ≤ 126))) →
      ∀ n ∈ encodeCodes l, 1 ≤ n ∧ n ≤ 33 := by
  intro l
  induction l with
  | nil => intro _ n hn; simp [encodeCodes] at hn
  | cons c cs ih =>
    intro h n hn
    rw [encodeCodes] at hn
    cases hlk : ALPHABET_CYRILLIQUE.lookup c with
    | some m =>
      rw [hlk] at hn
      rcases List.mem_cons.mp hn with h1 | h1
      · subst h1
        have hf := alphabet_pair_facts _ (lookup_mem _ _ _ hlk)
        exact ⟨hf.2.2.2.2.1, hf.2.2.2.2.2⟩
      · exact ih (fun x hx => h x (List.mem_cons_of_mem c hx)) n h1
    | none =>
      rw [hlk] at hn
      rcases h c (List.mem_cons_self c cs) with hs | hs | hs
      · rw [hlk] at hs
        simp at hs
      · have ha : pyIsAlpha c = true := by
          simp only [pyIsAlpha, Bool.or_eq_true, Bool.and_eq_true,
            decide_eq_true_eq]
          omega
        rw [if_pos ha] at hn
        rcases List.mem_cons.mp hn with h1 | h1
        · subst h1
          exact ⟨by omega, by omega⟩
        · exact ih (fun x hx => h x (List.mem_cons_of_mem c hx)) n h1
      · rw [if_neg (pyIsAlpha_false_of_ascii_nonletter c hs)] at hn
        exact ih (fun x hx => h x (List.mem_cons_of_mem c hx)) n hn

theorem encodeCodes_drops (l2 : List Char) (c : Char)
    (hlk : ALPHABET_CYRILLIQUE.lookup c = none) (ha : pyIsAlpha c = false) :
    ∀ l1 : List Char, encodeCodes (l1 ++ c :: l2) = encodeCodes (l1 ++ l2) := by
  intro l1
  induction l1 with
  | nil =>
    show encodeCodes (c :: l2) = encodeCodes l2
    rw [encodeCodes, hlk, ha]
    simp
  | cons a l1' ih =>
    show encodeCodes (a :: (l1' ++ c :: l2)) = encodeCodes (a :: (l1' ++ l2))
    rw [encodeCodes, encodeCodes]
    cases hla : ALPHABET_CYRILLIQUE.lookup a with
    | some m => rw [ih]
    | none => rw [ih]

/-- C3 (amended): for each character of the uppercased, stripped word,
the encoder emits the primary-alphabet code of a primary symbol and
`ord(c) - ord('A') + 1` for ANY character that Python classifies as
alphabetic — not only basic-Latin letters, so the value can fall
outside [1,33], e.g. 873 for Ω and 137 for the É of "café" — and drops
only non-alphabetic characters.  For every word whose characters are
primary-alphabet symbols (up to case), basic-Latin letters, or ASCII
non-letters — the domain where the embedded `isalpha`/`upper` coincide
with Python — every emitted code (hence every dot-separated token of
the output) lies in [1,33], and ASCII non-letters are silently
dropped. -/
theorem C3_encoder_token_range (w : String)
    (h : ∀ c ∈ w.data,
      (ALPHABET_CYRILLIQUE.lookup (pyUpperChar c)).isSome = true ∨
      (65 ≤ (pyUpperChar c).toNat ∧ (pyUpperChar c).toNat ≤ 90) ∨
      (c.toNat < 65 ∨ (91 ≤ c.toNat ∧ c.toNat ≤ 96) ∨
        (123 ≤ c.toNat ∧ c.toNat ≤ 126))) :
    (∀ n ∈ encodeCodes (pyStripList (w.data.map pyUpperChar)), 1 ≤ n ∧ n ≤ 33) ∧
    encoder_mot_cyrillique w =
      ⟨pyJoinDot ((encodeCodes (pyStripList (w.data.map pyUpperChar))).map
        (fun n => (toString n).data))⟩ ∧
    (∀ (l1 l2 : List Char) (c : Char),
      (c.toNat < 65 ∨ (91 ≤ c.toNat ∧ c.toNat ≤ 96) ∨
        (123 ≤ c.toNat ∧ c.toNat ≤ 126)) →
      encodeCodes (l1 ++ c :: l2) = encodeCodes (l1 ++ l2)) := by
  refine ⟨?_, rfl, ?_⟩
  · apply encodeCodes_bounds
    intro x hx
    obtain ⟨c0, hc0, rfl⟩ := List.mem_map.mp (mem_of_mem_pyStripList _ x hx)
    rcases h c0 hc0 with hs | hs | hs
    · exact Or.inl hs
    · exact Or.inr (Or.inl hs)
    · have he : pyUpperChar c0 = c0 :=
        pyUpperChar_of_none c0 (by omega) (by omega) (by omega) (by omega)
      rw [he]
      exact Or.inr (Or.inr hs)
  · intro l1 l2 c hs
    have hlk : ALPHABET_CYRILLIQUE.lookup c = none :=
      lookup_none_of_low c (by omega)
    have ha : pyIsAlpha c = false :=
      Bool.not_eq_true _ ▸ eq_false_of_ne_true
        (pyIsAlpha_false_of_ascii_nonletter c hs)
    exact encodeCodes_drops l2 c hlk ha l1

/-- C3 witness: the amended token-range law applied to "Мир-42" (two
cases of Cyrillic letters plus ASCII punctuation and digits),
instantiated at its first emitted code 14. -/
theorem C3_encoder_token_range_witness : 1 ≤ (14 : Int) ∧ (14 : Int) ≤ 33 :=
  (C3_encoder_token_range "Мир-42" (by decide)).1 14 (by decide)

theorem decodeToken_mem_primary :
    ∀ (tok : List Char) (c : Char), c ∈ decodeToken tok →
      (ALPHABET_CYRILLIQUE.lookup c).isSome = true := by
  intro tok c hc
  simp only [decodeToken] at hc
  split at hc
  · split at hc
    · split at hc
      · next lettre hlk =>
        obtain ⟨p, hp, hpe⟩ := List.mem_map.mp (lookup_mem _ _ _ hlk)
        injection hpe with he1 he2
        rw [List.mem_singleton] at hc
        subst hc
        rw [← he2]
        refine mem_lookup_isSome _ p.1 p.2 ?_
        rw [Prod.mk.eta]
        exact hp
      · next hlk => simp at hc
    · split at hc
      · next h1 h2 => exact absurd ⟨h2.1, le_trans h2.2 (by omega)⟩ h1
      · simp at hc
  · simp at hc

/-- C10: every character of the string returned by
`decoder_sequence_cyrillique` is a primary-alphabet (Cyrillic) symbol:
the range test `1 <= numero <= 33` subsumes `1 <= numero <= 26`, so the
auxiliary Latin branch of the decoder is unreachable and decoding never
emits a Latin character. -/
theorem C10_decoder_output_primary (s : String) (c : Char)
    (hc : c ∈ (decoder_sequence_cyrillique s).data) :
    (ALPHABET_CYRILLIQUE.lookup c).isSome = true := by
  unfold decoder_sequence_cyrillique at hc
  obtain ⟨t, ht, hct⟩ := List.mem_flatten.mp hc
  obtain ⟨tok, _, rfl⟩ := List.mem_map.mp ht
  exact decodeToken_mem_primary tok c hct

/-- C10 witness: the output-alphabet law applied to the decoded sequence
"1" and its output character А. -/
theorem C10_decoder_output_primary_witness :
    (ALPHABET_CYRILLIQUE.lookup 'А').isSome = true :=
  C10_decoder_output_primary "1" 'А' (by decide)

/-- The trial-division loop of `is_prime` checks exactly the divisors
`i` with `2 ≤ i` and `i * i ≤ n`. -/
theorem is_prime_iff (n : Int) :
    is_prime n = true ↔
      2 ≤ n ∧ ∀ i : Nat, 2 ≤ i → i * i ≤ n.toNat → ¬ i ∣ n.toNat := by
  unfold is_prime
  by_cases h : n < 2
  · rw [if_pos h]
    simp only [Bool.false_eq_true, false_iff, not_and]
    intro h2
    omega
  · rw [if_neg h, List.all_eq_true]
    have hsq1 : 1 ≤ isqrt n.toNat := by
      rw [isqrt_eq_sqrt]
      have := Nat.sqrt_pos (n := n.toNat)
      omega
    constructor
    · intro hall
      refine ⟨by omega, ?_⟩
      intro i h2 hii hdvd
      have hisq : i ≤ isqrt n.toNat := by
        rw [isqrt_eq_sqrt]
        exact Nat.le_sqrt.mpr hii
      have hmem : i ∈ List.range' 2 (isqrt n.toNat - 1) := by
        rw [List.mem_range'_1]
        omega
      have hne := hall i hmem
      simp only [bne_iff_ne, ne_eq] at hne
      exact hne (Nat.mod_eq_zero_of_dvd hdvd)
    · rintro ⟨h2, hnd⟩ i hmem
      rw [List.mem_range'_1] at hmem
      have hii : i * i ≤ n.toNat := by
        apply Nat.le_sqrt.mp
        rw [← isqrt_eq_sqrt]
        omega
      simp only [bne_iff_ne, ne_eq]
      intro hmod
      exact hnd i (by omega) hii (Nat.dvd_of_mod_eq_zero hmod)

/-- When no divisor at or above the current trial divisor exists,
`factorLoop` returns the number itself as the only factor. -/
theorem factorLoop_eq_single (n : Nat) :
    ∀ (k d : Nat), n + 1 - d ≤ k → 2 ≤ d → 2 ≤ n →
      (∀ i, d ≤ i → i * i ≤ n → ¬ i ∣ n) → factorLoop d n = [n] := by
  intro k
  induction k with
  | zero =>
    intro d hk h2d h2n hnd
    rw [factorLoop]
    have hdn : n < d := by omega
    have hdd : ¬ (2 ≤ d ∧ d * d ≤ n) := by
      rintro ⟨_, hsq⟩
      exact absurd (le_trans (Nat.le_mul_of_pos_left d (by omega)) hsq) (by omega)
    rw [dif_neg hdd, if_pos (by omega : 1 < n)]
  | succ k ih =>
    intro d hk h2d h2n hnd
    rw [factorLoop]
    by_cases hg : 2 ≤ d ∧ d * d ≤ n
    · rw [dif_pos hg]
      have hnd' : ¬ d ∣ n := hnd d (le_refl d) hg.2
      have hdo : divideOut d n = ([], n) := by
        rw [divideOut, dif_neg]
        rintro ⟨_, _, hmod⟩
        exact hnd' (Nat.dvd_of_mod_eq_zero hmod)
      simp only [hdo, List.nil_append]
      exact ih (d + 1) (by omega) (by omega) h2n (fun i hi => hnd i (by omega))
    · rw [dif_neg hg, if_pos (by omega : 1 < n)]

/-- When `d0` is the least divisor at or above the current trial
divisor and `d0 * d0 ≤ n`, `factorLoop` emits `d0` first. -/
theorem factorLoop_head_divisor (n : Nat) :
    ∀ (k d d0 : Nat), n + 1 - d ≤ k → 2 ≤ d → d ≤ d0 → d0 * d0 ≤ n → d0 ∣ n →
      (∀ i, d ≤ i → i < d0 → ¬ i ∣ n) →
      ∃ rest, factorLoop d n = d0 :: rest := by
  intro k
  induction k with
  | zero =>
    intro d d0 hk h2d hdd0 hsq _ _
    exfalso
    have : d0 ≤ n := le_trans (Nat.le_mul_of_pos_left d0 (by omega)) hsq
    omega
  | succ k ih =>
    intro d d0 hk h2d hdd0 hsq hdvd hmin
    rw [factorLoop]
    have hg : 2 ≤ d ∧ d * d ≤ n := ⟨h2d, le_trans (Nat.mul_le_mul hdd0 hdd0) hsq⟩
    rw [dif_pos hg]
    by_cases hde : d = d0
    · subst hde
      have h4 : 4 ≤ n := le_trans (Nat.mul_le_mul h2d h2d) hg.2
      have hdo : ∃ fs m, divideOut d n = (d :: fs, m) := by
        rw [divideOut,
          dif_pos ⟨h2d, by omega, Nat.mod_eq_zero_of_dvd hdvd⟩]
        exact ⟨_, _, rfl⟩
      obtain ⟨fs, m, hdo⟩ := hdo
      simp only [hdo]
      exact ⟨fs ++ factorLoop (d + 1) m, rfl⟩
    · have hnd : ¬ d ∣ n := hmin d (le_refl d) (by omega)
      have hdo : divideOut d n = ([], n) := by
        rw [divideOut, dif_neg]
        rintro ⟨_, _, hmod⟩
        exact hnd (Nat.dvd_of_mod_eq_zero hmod)
      simp only [hdo, List.nil_append]
      exact ih (d + 1) d0 (by omega) (by omega) (by omega) hsq hdvd
        (fun i hi1 hi2 => hmin i (by omega) hi2)

/-- C5: `is_prime n` holds iff `factorize n` has exactly one element and
that element equals `n` with `n ≥ 2`; and for every `n < 2`, `factorize`
returns the single-element list `[n]`, not an empty list. -/
theorem C5_prime_iff_factorize (n : Int) :
    (is_prime n = true ↔ factorize n = [n] ∧ 2 ≤ n) ∧
    (n < 2 → factorize n = [n]) := by
  constructor
  · constructor
    · intro hp
      obtain ⟨h2, hnd⟩ := (is_prime_iff n).mp hp
      have h2' : 2 ≤ n.toNat := by omega
      have hloop : factorLoop 2 n.toNat = [n.toNat] :=
        factorLoop_eq_single n.toNat (n.toNat + 1 - 2) 2 (le_refl _) (le_refl 2)
          h2' (fun i hi hii => hnd i hi hii)
      refine ⟨?_, h2⟩
      unfold factorize
      rw [if_neg (by omega), hloop]
      simp [Int.toNat_of_nonneg (by omega : (0 : Int) ≤ n)]
    · rintro ⟨hfac, h2⟩
      rw [is_prime_iff]
      refine ⟨h2, ?_⟩
      intro i h2i hii hdvd
      have hex : ∃ j, 2 ≤ j ∧ j * j ≤ n.toNat ∧ j ∣ n.toNat := ⟨i, h2i, hii, hdvd⟩
      classical
      set d0 := Nat.find hex with hd0
      obtain ⟨hj2, hjsq, hjdvd⟩ := Nat.find_spec hex
      have hmin : ∀ j, 2 ≤ j → j < d0 → ¬ j ∣ n.toNat := by
        intro j hj2' hjlt hjd
        exact Nat.find_min hex hjlt
          ⟨hj2', le_trans (Nat.mul_le_mul (le_of_lt hjlt) (le_of_lt hjlt)) hjsq, hjd⟩
      obtain ⟨rest, hloop⟩ :=
        factorLoop_head_divisor n.toNat (n.toNat + 1 - 2) 2 d0 (le_refl _)
          (le_refl 2) hj2 hjsq hjdvd hmin
      unfold factorize at hfac
      rw [if_neg (by omega), hloop] at hfac
      simp only [List.map_cons, List.cons.injEq] at hfac
      have hd0n : (d0 : Int) = n := hfac.1
      have hd0n' : d0 = n.toNat := by omega
      have hsq' : d0 * d0 ≤ n.toNat := hjsq
      rw [hd0n'] at hsq'
      have h2n : 2 ≤ n.toNat := by omega
      have h3 : 2 * n.toNat ≤ n.toNat * n.toNat := Nat.mul_le_mul_right n.toNat h2n
      exact absurd (le_trans h3 hsq') (by omega)
  · intro h
    unfold factorize
    rw [if_pos h]

/-- C5 witness: the equivalence applied at the prime 7. -/
theorem C5_prime_iff_factorize_witness : factorize 7 = [7] ∧ (2 : Int) ≤ 7 :=
  (C5_prime_iff_factorize 7).1.mp (by decide)

/-- C7: the numeric analysis of 74 reports hexadecimal "4A", binary
"1001010", parity "Even" (the parity field is "Odd"/"Even" according to
`n mod 2`; `src/truth.py` renders the same labels bilingually, e.g.
"Четное (Even)"), composite prime status (`is_prime 74` is false), and
factorization [2, 37]. -/
theorem C7_analyse_74 :
    (analyser_nombre 74).hexadecimal = "4A" ∧
    (analyser_nombre 74).binary = "1001010" ∧
    (analyser_nombre 74).parity = "Even" ∧
    is_prime 74 = false ∧
    (analyser_nombre 74).prime_status = "Composite" ∧
    (analyser_nombre 74).factors = [2, 37] := by
  refine ⟨?_, ?_, by decide, by decide, by decide, ?_⟩
  · show hexadecimal_field 74 = "4A"
    simp [hexadecimal_field, pyIntLit, pyNatLit, natDigits, baseDigit, pyUpperChar]
  · show binary_field 74 = "1001010"
    simp [binary_field, pyIntLit, pyNatLit, natDigits, baseDigit]
  · show factorize 74 = [2, 37]
    simp [factorize, factorLoop, divideOut]

/-- C8: `number_to_ipv4` returns the dotted quad of the four successive
bytes of the 32-bit big-endian value for every 0 ≤ n ≤ 4294967295 — in
particular "0.0.0.0" at 0 and "255.255.255.255" at 4294967295 — and the
bilingual invalid-address sentinel for every n outside the range, e.g.
at 4294967296. -/
theorem C8_ipv4 (n : Int) :
    (0 ≤ n → n ≤ 4294967295 →
      number_to_ipv4 n =
        toString (n.toNat / 16777216 % 256) ++ "." ++
        toString (n.toNat / 65536 % 256) ++ "." ++
        toString (n.toNat / 256 % 256) ++ "." ++
        toString (n.toNat % 256)) ∧
    ((n < 0 ∨ 4294967295 < n) →
      number_to_ipv4 n = "Неверный IPv4 адрес (Invalid IPv4 address)") ∧
    number_to_ipv4 0 = "0.0.0.0" ∧
    number_to_ipv4 4294967295 = "255.255.255.255" ∧
    number_to_ipv4 4294967296 = "Неверный IPv4 адрес (Invalid IPv4 address)" := by
  refine ⟨?_, ?_, by decide, by decide, by decide⟩
  · intro h0 h1
    unfold number_to_ipv4
    rw [if_pos ⟨h0, h1⟩]
    have e1 : n.toNat >>> 24 = n.toNat / 16777216 := by
      rw [Nat.shiftRight_eq_div_pow]
    have e2 : n.toNat >>> 16 = n.toNat / 65536 := by
      rw [Nat.shiftRight_eq_div_pow]
    have e3 : n.toNat >>> 8 = n.toNat / 256 := by
      rw [Nat.shiftRight_eq_div_pow]
    have e4 : ∀ m : Nat, m &&& 255 = m % 256 :=
      fun m => Nat.and_pow_two_sub_one_eq_mod m 8
    rw [e1, e2, e3, e4, e4, e4, e4]
  · intro h
    unfold number_to_ipv4
    rw [if_neg]
    rintro ⟨ha, hb⟩
    rcases h with h | h
    · omega
    · omega

/-- C8 witness: the dotted-quad law applied at 16909060
(= 0x01020304, whose bytes are 1, 2, 3, 4). -/
theorem C8_ipv4_witness : number_to_ipv4 16909060 =
    toString ((16909060 : Int).toNat / 16777216 % 256) ++ "." ++
    toString ((16909060 : Int).toNat / 65536 % 256) ++ "." ++
    toString ((16909060 : Int).toNat / 256 % 256) ++ "." ++
    toString ((16909060 : Int).toNat % 256) :=
  (C8_ipv4 16909060).1 (by decide) (by decide)

theorem weekday_append_ne_sentinel (w : Nat) (r : String) :
    weekdayName w ++ r ≠
      "Неверная или вне диапазона метка времени (Invalid or out-of-range timestamp)" := by
  intro h
  have hd := congrArg String.data h
  rw [String.data_append] at hd
  rcases w with _|_|_|_|_|_|w <;> simp [weekdayName] at hd

theorem formatTimestamp_ne_sentinel (t : Nat) :
    formatTimestamp t ≠
      "Неверная или вне диапазона метка времени (Invalid or out-of-range timestamp)" := by
  unfold formatTimestamp
  simp only [String.append_assoc]
  apply weekday_append_ne_sentinel

/-- C9: every timestamp in [0, 2000000000] is rendered as a calendar
date/time (day-of-week, day, month name, year, time, UTC marker — never
the sentinel), every timestamp outside the range yields the bilingual
out-of-range sentinel, and the function is total so no exception
reaches the caller.  At 0 the rendering is the UNIX epoch. -/
theorem C9_unix_timestamp (n : Int) :
    (0 ≤ n → n ≤ 2000000000 →
      unix_to_datetime n = formatTimestamp n.toNat ∧
      unix_to_datetime n ≠
        "Неверная или вне диапазона метка времени (Invalid or out-of-range timestamp)") ∧
    ((n < 0 ∨ 2000000000 < n) →
      unix_to_datetime n =
        "Неверная или вне диапазона метка времени (Invalid or out-of-range timestamp)") ∧
    unix_to_datetime 0 = "Thursday, 01 January 1970 at 00:00:00 UTC" := by
  refine ⟨?_, ?_, by decide⟩
  · intro h0 h1
    have he : unix_to_datetime n = formatTimestamp n.toNat := by
      unfold unix_to_datetime
      rw [if_pos ⟨h0, h1⟩]
    exact ⟨he, he ▸ formatTimestamp_ne_sentinel n.toNat⟩
  · intro h
    unfold unix_to_datetime
    rw [if_neg]
    rintro ⟨ha, hb⟩
    rcases h with h | h
    · omega
    · omega

/-- C9 witness: the timestamp law applied at 86400 (one day past the
epoch). -/
theorem C9_unix_timestamp_witness :
    unix_to_datetime 86400 = formatTimestamp (86400 : Int).toNat ∧
    unix_to_datetime 86400 ≠
      "Неверная или вне диапазона метка времени (Invalid or out-of-range timestamp)" :=
  (C9_unix_timestamp 86400).1 (by decide) (by decide)

/-- The joint Fibonacci–Lucas invariants: `L(k)² - 5·F(k)² = 4·(-1)^k`
together with the mixed product identity and its shift, proved by one
simultaneous induction. -/
theorem lucas_fib_identity (k : Nat) :
    ((lucas k : ℤ) ^ 2 = 5 * (Nat.fib k : ℤ) ^ 2 + 4 * (-1) ^ k) ∧
    ((lucas (k + 1) : ℤ) * (lucas k : ℤ) =
      5 * (Nat.fib (k + 1) : ℤ) * (Nat.fib k : ℤ) + 2 * (-1) ^ k) ∧
    ((lucas (k + 1) : ℤ) ^ 2 =
      5 * (Nat.fib (k + 1) : ℤ) ^ 2 + 4 * (-1) ^ (k + 1)) := by
  induction k with
  | zero => norm_num [lucas]
  | succ k ih =>
    obtain ⟨hA, hB, hA1⟩ := ih
    have hl : ((lucas (k + 2) : ℕ) : ℤ) = (lucas (k + 1) : ℤ) + (lucas k : ℤ) := by
      show ((lucas (k + 1) + lucas k : ℕ) : ℤ) = _
      push_cast
      ring
    have hf : ((Nat.fib (k + 2) : ℕ) : ℤ) = (Nat.fib (k + 1) : ℤ) + (Nat.fib k : ℤ) := by
      rw [Nat.fib_add_two]
      push_cast
      ring
    refine ⟨hA1, ?_, ?_⟩
    · rw [hl, hf]
      have hs : ((-1 : ℤ)) ^ (k + 1) = -((-1) ^ k) := by ring
      rw [hs]
      linear_combination hA1 + hB
    · rw [hl, hf]
      have hs : ((-1 : ℤ)) ^ (k + 2) = (-1) ^ k := by ring
      rw [hs]
      have hs1 : ((-1 : ℤ)) ^ (k + 1) = -((-1) ^ k) := by ring
      rw [hs1] at hA1
      linear_combination hA1 + hA + 2 * hB

theorem lucas_succ_fib (k : Nat) :
    lucas (k + 1) = Nat.fib (k + 2) + Nat.fib k ∧
    lucas (k + 2) = Nat.fib (k + 3) + Nat.fib (k + 1) := by
  induction k with
  | zero => decide
  | succ k ih =>
    refine ⟨ih.2, ?_⟩
    have h1 := ih.1
    have h2 := ih.2
    have hstep : lucas (k + 3) = lucas (k + 2) + lucas (k + 1) := rfl
    have hf4 : Nat.fib (k + 4) = Nat.fib (k + 2) + Nat.fib (k + 3) :=
      Nat.fib_add_two
    have hf2 : Nat.fib (k + 2) = Nat.fib k + Nat.fib (k + 1) := Nat.fib_add_two
    show lucas (k + 3) = Nat.fib (k + 4) + Nat.fib (k + 2)
    omega

theorem lucas_add_fib (k : Nat) : lucas k + Nat.fib k = 2 * Nat.fib (k + 1) := by
  cases k with
  | zero => decide
  | succ k =>
    have h := (lucas_succ_fib k).1
    have hf2 : Nat.fib (k + 2) = Nat.fib k + Nat.fib (k + 1) := Nat.fib_add_two
    show lucas (k + 1) + Nat.fib (k + 1) = 2 * Nat.fib (k + 2)
    omega

theorem lucas_succ_two_fib (k : Nat) :
    lucas (k + 1) = Nat.fib (k + 1) + 2 * Nat.fib k := by
  have h := (lucas_succ_fib k).1
  have hf2 : Nat.fib (k + 2) = Nat.fib k + Nat.fib (k + 1) := Nat.fib_add_two
  omega

/-- Descent for the Pell-like equation `x² = 5y² ± 4`: every
non-negative integer solution is a Lucas–Fibonacci pair.  The step from
a solution `(x, y)` with `y ≥ 2` to the smaller solution
`((5y-x)/2, (x-y)/2)` flips the sign of the `±4`. -/
theorem pell_descent :
    ∀ y x : Nat,
      ((x : ℤ) ^ 2 = 5 * (y : ℤ) ^ 2 + 4 ∨ (x : ℤ) ^ 2 = 5 * (y : ℤ) ^ 2 - 4) →
      ∃ k, y = Nat.fib k ∧ x = lucas k := by
  intro y
  induction y using Nat.strong_induction_on with
  | _ y ih =>
    intro x hx
    rcases Nat.lt_or_ge y 2 with hy | hy
    · interval_cases y
      · rcases hx with h | h
        · norm_num at h
          have hxle : (x : ℤ) ≤ 2 := by nlinarith [sq_nonneg ((x : ℤ) - 2)]
          have hxle' : x ≤ 2 := by exact_mod_cast hxle
          interval_cases x
          · exfalso; norm_num at h
          · exfalso; norm_num at h
          · exact ⟨0, by decide⟩
        · norm_num at h
          exact absurd h (by nlinarith [sq_nonneg ((x : ℤ))])
      · rcases hx with h | h
        · norm_num at h
          have hxle : (x : ℤ) ≤ 3 := by nlinarith [sq_nonneg ((x : ℤ) - 3)]
          have hxle' : x ≤ 3 := by exact_mod_cast hxle
          interval_cases x
          · exfalso; norm_num at h
          · exfalso; norm_num at h
          · exfalso; norm_num at h
          · exact ⟨2, by decide⟩
        · norm_num at h
          rcases h with h | h
          · subst h
            exact ⟨1, by decide⟩
          · exfalso; omega
    · obtain ⟨e, he4, heq⟩ :
          ∃ e : ℤ, (e = 4 ∨ e = -4) ∧ (x : ℤ) ^ 2 = 5 * (y : ℤ) ^ 2 + e := by
        rcases hx with h | h
        · exact ⟨4, Or.inl rfl, h⟩
        · exact ⟨-4, Or.inr rfl, by linarith⟩
      have heb : (-4 : ℤ) ≤ e ∧ e ≤ 4 := by
        rcases he4 with rfl | rfl <;> norm_num
      have hY2 : (2 : ℤ) ≤ (y : ℤ) := by exact_mod_cast hy
      have hx0 : (0 : ℤ) ≤ (x : ℤ) := by positivity
      have hy0 : (0 : ℤ) ≤ (y : ℤ) := by positivity
      have hysq : (4 : ℤ) ≤ (y : ℤ) * (y : ℤ) := by nlinarith
      have hYX : (y : ℤ) < (x : ℤ) := by
        by_contra hc
        push_neg at hc
        nlinarith [mul_self_le_mul_self hx0 hc]
      have hX3Y : (x : ℤ) < 3 * (y : ℤ) := by
        by_contra hc
        push_neg at hc
        nlinarith [mul_self_le_mul_self (by positivity : (0:ℤ) ≤ 3 * (y:ℤ)) hc]
      have hev : Even ((x : ℤ) - (y : ℤ)) := by
        have hprod : ((x : ℤ) - y) * ((x : ℤ) + y) = 4 * (y : ℤ) ^ 2 + e := by
          linear_combination heq
        have hevp : Even (((x : ℤ) - y) * ((x : ℤ) + y)) := by
          rw [hprod]
          rcases he4 with rfl | rfl
          · exact ⟨2 * (y : ℤ) ^ 2 + 2, by ring⟩
          · exact ⟨2 * (y : ℤ) ^ 2 - 2, by ring⟩
        rcases Int.even_mul.mp hevp with h | h
        · exact h
        · obtain ⟨r, hr⟩ := h
          exact ⟨r - y, by omega⟩
      obtain ⟨a, ha⟩ := hev
      have ha1 : 1 ≤ a := by omega
      have hay : a < (y : ℤ) := by omega
      have heq' : (2 * (y : ℤ) - a) ^ 2 = 5 * a ^ 2 - e := by
        have hxa : (x : ℤ) = (y : ℤ) + 2 * a := by omega
        rw [hxa] at heq
        linear_combination -heq
      have ha0 : (0 : ℤ) ≤ a := by omega
      obtain ⟨a', rfl⟩ : ∃ a' : Nat, (a' : ℤ) = a :=
        ⟨a.toNat, Int.toNat_of_nonneg ha0⟩
      have hb0 : (0 : ℤ) ≤ 2 * (y : ℤ) - (a' : ℤ) := by omega
      obtain ⟨b', hb'⟩ : ∃ b' : Nat, (b' : ℤ) = 2 * (y : ℤ) - (a' : ℤ) :=
        ⟨(2 * (y : ℤ) - (a' : ℤ)).toNat, Int.toNat_of_nonneg hb0⟩
      have ha'y : a' < y := by exact_mod_cast hay
      have hpell' : (b' : ℤ) ^ 2 = 5 * (a' : ℤ) ^ 2 + 4 ∨
          (b' : ℤ) ^ 2 = 5 * (a' : ℤ) ^ 2 - 4 := by
        rw [hb']
        rcases he4 with rfl | rfl
        · right; linarith [heq']
        · left; linarith [heq']
      obtain ⟨k, hk1, hk2⟩ := ih a' ha'y b' hpell'
      have h2y : 2 * (y : ℤ) = (a' : ℤ) + (b' : ℤ) := by rw [hb']; ring
      have hlf : (lucas k : ℤ) + (Nat.fib k : ℤ) = 2 * (Nat.fib (k + 1) : ℤ) := by
        exact_mod_cast lucas_add_fib k
      have hyfib : (y : ℤ) = (Nat.fib (k + 1) : ℤ) := by
        rw [hk1, hk2] at h2y
        linarith [hlf, h2y]
      have hyfib' : y = Nat.fib (k + 1) := by exact_mod_cast hyfib
      have hxluc : (x : ℤ) = (lucas (k + 1) : ℤ) := by
        have hxa2 : (x : ℤ) = (y : ℤ) + 2 * (a' : ℤ) := by omega
        have hls : (lucas (k + 1) : ℤ) =
            (Nat.fib (k + 1) : ℤ) + 2 * (Nat.fib k : ℤ) := by
          exact_mod_cast lucas_succ_two_fib k
        rw [hxa2, hyfib, hk1, hls]
      have hxluc' : x = lucas (k + 1) := by exact_mod_cast hxluc
      exact ⟨k + 1, hyfib', hxluc'⟩

theorem isqrt_sq (m : Nat) : isqrt (m * m) = m := by
  rw [isqrt_eq_sqrt, ← pow_two m]
  exact Nat.sqrt_eq' m

/-- Every Fibonacci number passes the perfect-square test. -/
theorem is_fibonacci_of_fib (k : Nat) :
    is_fibonacci ((Nat.fib k : Int)) = true := by
  simp only [is_fibonacci]
  rw [if_neg (not_lt.mpr (by positivity))]
  rcases Nat.even_or_odd k with he | ho
  · have hA := (lucas_fib_identity k).1
    rw [Even.neg_one_pow he] at hA
    rw [Bool.or_eq_true]
    left
    rw [beq_iff_eq]
    have hcast : 5 * (Nat.fib k : ℤ) * (Nat.fib k : ℤ) + 4 =
        ((lucas k * lucas k : ℕ) : ℤ) := by
      push_cast
      linear_combination -hA
    rw [hcast, Int.toNat_natCast, isqrt_sq]
    push_cast
    ring
  · have hA := (lucas_fib_identity k).1
    rw [Odd.neg_one_pow ho] at hA
    rw [Bool.or_eq_true]
    right
    rw [beq_iff_eq]
    have hcast : 5 * (Nat.fib k : ℤ) * (Nat.fib k : ℤ) - 4 =
        ((lucas k * lucas k : ℕ) : ℤ) := by
      push_cast
      linear_combination -hA
    rw [hcast, Int.toNat_natCast, isqrt_sq]
    push_cast
    ring

/-- C6: for every n ≥ 0, `is_fibonacci n` is true iff 5n²+4 or 5n²-4 is
a perfect square, which happens exactly when n is a Fibonacci number;
for every n < 0, `is_fibonacci n` is false. -/
theorem C6_fibonacci_test (n : Int) :
    (0 ≤ n → (is_fibonacci n = true ↔ ∃ k, (Nat.fib k : Int) = n)) ∧
    (0 ≤ n → (is_fibonacci n = true ↔
      ∃ s : Int, s ^ 2 = 5 * n * n + 4 ∨ s ^ 2 = 5 * n * n - 4)) ∧
    (n < 0 → is_fibonacci n = false) := by
  have main : 0 ≤ n → (is_fibonacci n = true ↔ ∃ k, (Nat.fib k : Int) = n) := by
    intro h0
    constructor
    · intro ht
      simp only [is_fibonacci] at ht
      rw [if_neg (not_lt.mpr h0)] at ht
      have hn : ((n.toNat : ℕ) : ℤ) = n := Int.toNat_of_nonneg h0
      rw [Bool.or_eq_true] at ht
      rcases ht with h | h
      · rw [beq_iff_eq] at h
        have hc : 5 * n * n + 4 = ((5 * n.toNat * n.toNat + 4 : ℕ) : ℤ) := by
          push_cast
          rw [hn]
        rw [hc, Int.toNat_natCast] at h
        have hs : isqrt (5 * n.toNat * n.toNat + 4) *
            isqrt (5 * n.toNat * n.toNat + 4) = 5 * n.toNat * n.toNat + 4 := by
          have h2 := congrArg Int.toNat h
          rw [Int.toNat_natCast, pow_two, ← Nat.cast_mul, Int.toNat_natCast] at h2
          exact h2
        obtain ⟨k, hk1, _⟩ := pell_descent n.toNat
            (isqrt (5 * n.toNat * n.toNat + 4)) (Or.inl (by
          have hzz := congrArg (fun m : ℕ => (m : ℤ)) hs
          push_cast at hzz
          rw [pow_two, pow_two]
          linear_combination hzz))
        exact ⟨k, by rw [← hk1, hn]⟩
      · rw [beq_iff_eq] at h
        have hge : (0 : ℤ) ≤ 5 * n * n - 4 := by
          rw [← h]
          positivity
        have h4 : 4 ≤ 5 * n.toNat * n.toNat := by
          have : (4 : ℤ) ≤ 5 * n * n := by linarith
          rw [← hn] at this
          exact_mod_cast this
        have hc : 5 * n * n - 4 = ((5 * n.toNat * n.toNat - 4 : ℕ) : ℤ) := by
          rw [Nat.cast_sub h4]
          push_cast
          rw [hn]
        rw [hc, Int.toNat_natCast] at h
        have hs : isqrt (5 * n.toNat * n.toNat - 4) *
            isqrt (5 * n.toNat * n.toNat - 4) = 5 * n.toNat * n.toNat - 4 := by
          have h2 := congrArg Int.toNat h
          rw [Int.toNat_natCast, pow_two, ← Nat.cast_mul, Int.toNat_natCast] at h2
          exact h2
        obtain ⟨k, hk1, _⟩ := pell_descent n.toNat
            (isqrt (5 * n.toNat * n.toNat - 4)) (Or.inr (by
          have hzz := congrArg (fun m : ℕ => (m : ℤ)) hs
          push_cast [Nat.cast_sub h4] at hzz
          rw [pow_two, pow_two]
          linear_combination hzz))
        exact ⟨k, by rw [← hk1, hn]⟩
    · rintro ⟨k, hk⟩
      rw [← hk]
      exact is_fibonacci_of_fib k
  refine ⟨main, ?_, ?_⟩
  · intro h0
    rw [main h0]
    constructor
    · rintro ⟨k, hk⟩
      rcases Nat.even_or_odd k with he | ho
      · have hA := (lucas_fib_identity k).1
        rw [Even.neg_one_pow he] at hA
        exact ⟨(lucas k : ℤ), Or.inl (by rw [← hk]; linear_combination hA)⟩
      · have hA := (lucas_fib_identity k).1
        rw [Odd.neg_one_pow ho] at hA
        exact ⟨(lucas k : ℤ), Or.inr (by rw [← hk]; linear_combination hA)⟩
    · rintro ⟨s, hs⟩
      have hn : ((n.toNat : ℕ) : ℤ) = n := Int.toNat_of_nonneg h0
      have hs0 : (0 : ℤ) ≤ |s| := abs_nonneg s
      obtain ⟨s', hs'⟩ : ∃ s' : Nat, (s' : ℤ) = |s| :=
        ⟨|s|.toNat, Int.toNat_of_nonneg hs0⟩
      have hsq : (s' : ℤ) ^ 2 = s ^ 2 := by rw [hs', sq_abs]
      obtain ⟨k, hk1, _⟩ := pell_descent n.toNat s' (by
        rcases hs with h | h
        · exact Or.inl (by rw [hsq, h, hn]; ring)
        · exact Or.inr (by rw [hsq, h, hn]; ring))
      exact ⟨k, by rw [← hk1, hn]⟩
  · intro hneg
    simp only [is_fibonacci]
    rw [if_pos hneg]

/-- C6 witness: the equivalence applied at 8 (a Fibonacci number). -/
theorem C6_fibonacci_test_witness :
    is_fibonacci 8 = true ↔ ∃ k, (Nat.fib k : Int) = 8 :=
  (C6_fibonacci_test 8).1 (by decide)

end TruthCyr
